import Mathlib

/-!
Verification development for the `llm_code_context_generator` repository
(`src/pack.py` and `src/redact_secrets.py`).

The Python sources are shallowly embedded as executable Lean definitions:
* text is a list of Unicode code points  (`List Nat`), byte strings are
  lists of byte values (`List Nat`, each < 256);
* relative paths are lists of characters (`List Char`);
* the filesystem walk (`Path.rglob`) is an explicit list of entries;
* the only loop that is not structurally recursive
  (`split_by_bytes_utf8`) is run on fuel that provably suffices whenever
  the loop advances, and a failure to advance — a state from which the
  deterministic Python loop can never terminate — is modelled as `none`.
-/

namespace PackSpec

/-! ## ByteChunker: `split_by_bytes_utf8` (pack.py, lines 117-129)

`data = big_text.encode("utf-8")` is modelled by `utf8Encode` applied to the
code points of the text, following the UTF-8 encoding scheme used by
CPython's `str.encode("utf-8")`. -/

/-- One code point's UTF-8 encoding (1 to 4 bytes). -/
def utf8EncodeChar (c : Nat) : List Nat :=
  if c < 128 then [c]
  else if c < 2048 then [192 + c / 64, 128 + c % 64]
  else if c < 65536 then [224 + c / 4096, 128 + (c / 64) % 64, 128 + c % 64]
  else [240 + c / 262144, 128 + (c / 4096) % 64, 128 + (c / 64) % 64, 128 + c % 64]

/-- UTF-8 encoding of a whole text (`big_text.encode("utf-8")`). -/
def utf8Encode (text : List Nat) : List Nat :=
  (text.map utf8EncodeChar).flatten

/-- A Unicode scalar value: what a Python `str` character that `encode`
accepts can be (code point below 0x110000 and not a surrogate). -/
def ValidScalar (c : Nat) : Prop := c < 1114112 ∧ ¬ (55296 ≤ c ∧ c < 57344)

/-- A byte sequence is self-contained valid UTF-8 iff it is the encoding of
some sequence of Unicode scalar values. -/
def Utf8Encodable (bs : List Nat) : Prop :=
  ∃ cs : List Nat, (∀ c ∈ cs, ValidScalar c) ∧ utf8Encode cs = bs

/-- `(data[j-1] & 0b11000000) == 0b10000000`: UTF-8 continuation byte test. -/
def isCont (b : Nat) : Bool := b &&& 192 == 128

/-- The inner backward scan of `split_by_bytes_utf8`:
`while j > i and (data[j-1] & 0b11000000) == 0b10000000: j -= 1`. -/
def backoff (data : List Nat) (i : Nat) : Nat → Nat
  | 0 => 0
  | j + 1 =>
    if i < j + 1 && isCont (data.getD j 0) then backoff data i j else j + 1

/-- The outer `while i < len(data)` loop of `split_by_bytes_utf8`.

The loop state is exactly the index `i`; one iteration is a pure function of
`i`.  Hence if an iteration ends with `j = i` (no forward progress) the
Python loop repeats the same state forever; this divergence is modelled as
`none`.  `fuel = data.length - i` always suffices for the terminating runs,
because every surviving iteration advances `i` by at least one byte, so the
`fuel = 0` branch can only be reached with `i ≥ data.length`. -/
def splitGo (data : List Nat) (maxBytes : Nat) : Nat → Nat → Option (List (List Nat))
  | 0, i => if data.length ≤ i then some [] else none
  | fuel + 1, i =>
    if data.length ≤ i then some []
    else
      let j := backoff data i (min (i + maxBytes) data.length)
      if i < j then
        match splitGo data maxBytes fuel j with
        | some rest => some (((data.drop i).take (j - i)) :: rest)
        | none => none
      else none

/-- `split_by_bytes_utf8(big_text, max_bytes)`: `some chunks` when the Python
function returns `chunks`, `none` when its loop stops advancing (and would
therefore run forever). -/
def split_by_bytes_utf8 (big_text : List Nat) (max_bytes : Nat) :
    Option (List (List Nat)) :=
  splitGo (utf8Encode big_text) max_bytes (utf8Encode big_text).length 0

/-! ## IgnoreMatcher: `match_ignore` (pack.py, lines 75-88) -/

/-- `rel.replace("\\", "/")`, character by character. -/
def unixc (c : Char) : Char := if c = '\\' then '/' else c

/-- The regex built in the glob branch of `match_ignore`:
`re.match("^" + re.escape(pat).replace("\\*", ".*") + "$", rel_unix)`.
Every character of the pattern other than `*` is matched literally
(`re.escape`), `*` becomes `.*`, where `.` matches anything but a newline,
and the trailing `$` also matches just before a final newline. -/
def globCore (pat s : List Char) : Bool :=
  match pat, s with
  | [], s2 => s2 == [] || s2 == ['\n']
  | '*' :: ps, [] => globCore ps []
  | '*' :: ps, c :: s2 =>
    globCore ps (c :: s2) || (decide (c ≠ '\n') && globCore ('*' :: ps) s2)
  | _ :: _, [] => false
  | p :: ps, c :: s2 => p == c && globCore ps s2
termination_by 2 * s.length + pat.length
decreasing_by
  all_goals simp [List.length_cons]
  all_goals omega

/-- `match_ignore(rel, patterns)`: the loop returns `True` at the first
pattern whose branch (directory-prefix, glob, or exact) matches, i.e. iff
any pattern matches. -/
def match_ignore (rel : List Char) (patterns : List (List Char)) : Bool :=
  let rel_unix := rel.map unixc
  patterns.any fun pat =>
    if pat.getLast? == some '/' then pat.dropLast.isPrefixOf rel_unix
    else if pat.contains '*' then globCore pat rel_unix
    else rel_unix == pat

/-! ## FileSelector: `iter_repo_files`, `is_allowed_file` and the selection
loop of `build_pack` (pack.py, lines 90-107 and 154-159) -/

/-- A yielded `(p, rel)` pair: `raw` is `str(p.relative_to(root))` (also the
textual form of the path object `p`, used for `p.name` / `p.suffix`),
`rel` its unix-normalized form, `content` what `read_text_safe(p)` returns
(that helper catches every exception, so reading is total). -/
structure PyFile where
  raw : List Char
  rel : List Char
  content : String
deriving DecidableEq, Repr

/-- One entry of the `root.rglob("*")` walk, in enumeration order. -/
inductive Entry where
  | dir (rel : List Char)
  | file (rel : List Char) (content : String)
deriving DecidableEq, Repr

def mkFile (r : List Char) (c : String) : PyFile := ⟨r, r.map unixc, c⟩

/-- `iter_repo_files(root, ignore)`.  Note that in the directory case both
outcomes of the ignore test `continue`: a matching directory is not yielded
(directories are never yielded) but its contents are *not* pruned — files
below it are excluded only if their own relative path matches a rule. -/
def iter_repo_files : List Entry → List (List Char) → List PyFile
  | [], _ => []
  | .dir d :: rest, ign =>
    if match_ignore ((d.map unixc) ++ ['/']) ign then iter_repo_files rest ign
    else iter_repo_files rest ign
  | .file r c :: rest, ign =>
    if match_ignore (r.map unixc) ign then iter_repo_files rest ign
    else mkFile r c :: iter_repo_files rest ign

/-- Last `/`-separated component: `Path(x).name` for the canonical relative
paths produced by `relative_to` (nonempty, no trailing or doubled slash). -/
def lastSeg (p : List Char) : List Char :=
  p.foldl (fun acc c => if c = '/' then [] else acc ++ [c]) []

/-- `PurePath.suffix` of a file name: the part of `name` from its last dot
on, provided that dot is neither the first nor the last character. -/
def pySuffix (name : List Char) : List Char :=
  let k := (name.reverse.takeWhile (fun c => c ≠ '.')).length
  if k = name.length then []
  else
    let i := name.length - 1 - k
    if 0 < i ∧ i < name.length - 1 then name.drop i else []

/-- `is_allowed_file(p, include_exts)` (pack.py, lines 102-107). -/
def is_allowed_file (f : PyFile) (include_exts : List (List Char)) : Bool :=
  let name := lastSeg f.raw
  include_exts.contains (pySuffix name) ||
    (name.head? == some '.' && pySuffix name == [])

/-- `str.strip()` (ASCII whitespace; the claims only involve ASCII). -/
def pyStrip (s : List Char) : List Char :=
  ((s.dropWhile Char.isWhitespace).reverse.dropWhile Char.isWhitespace).reverse

/-- `str.rstrip("/")`. -/
def rstripSlash (s : List Char) : List Char :=
  (s.reverse.dropWhile (fun c => c = '/')).reverse

/-- The force-include normalization of `build_pack` (pack.py, line 155):
`[p.strip().replace("\\", "/").rstrip("/") + "/" for p in force_include if p.strip()]`. -/
def normForced (force_include : List (List Char)) : List (List Char) :=
  (force_include.filter (fun p => !(pyStrip p).isEmpty)).map
    (fun p => rstripSlash ((pyStrip p).map unixc) ++ ['/'])

/-- Lexicographic comparison of paths by code point — the order Python's
`<` induces on `str`, lifted to `≤`. -/
def strLe : List Char → List Char → Bool
  | [], _ => true
  | _ :: _, [] => false
  | a :: as, b :: bs =>
    if a.toNat < b.toNat then true
    else if b.toNat < a.toNat then false
    else strLe as bs

def relLe (x y : PyFile) : Bool := strLe x.rel y.rel

/-- Stable insertion keeping `x` after every earlier element with an equal
or smaller key. -/
def insortFile (x : PyFile) : List PyFile → List PyFile
  | [] => [x]
  | y :: ys => if relLe y x then y :: insortFile x ys else x :: y :: ys

/-- `files.sort(key=lambda x: x[1])`: Python's sort is a stable ascending
sort by the relative path; any stable sort computes the same list, modelled
here as stable insertion sort. -/
def sortByRel (l : List PyFile) : List PyFile :=
  l.foldl (fun acc x => insortFile x acc) []

/-- The selection phase of `build_pack` (pack.py, lines 154-159): walk,
ignore-filter, allow-list / force-include filter, then sort by `rel`. -/
def build_pack_files (walk : List Entry) (ignore : List (List Char))
    (include_exts : List (List Char)) (force_include : List (List Char)) :
    List PyFile :=
  let forced := normForced force_include
  sortByRel ((iter_repo_files walk ignore).filter
    (fun f => is_allowed_file f include_exts ||
      forced.any (fun fi => fi.isPrefixOf f.rel)))

/-- The file entry underlying a walk entry, if any (used to state that a
tree's file paths are distinct). -/
def entryFile : Entry → Option PyFile
  | .dir _ => none
  | .file r c => some (mkFile r c)

/-! ## DocumentAssembler: `render_tree` and the assembly loop of
`build_pack` (pack.py, lines 109-115 and 161-174) -/

/-- The oversized-content guard of `build_pack` (line 169):
`if len(text) > 250_000: text = text[:250_000] + "\n<<TRUNCATED>>\n"`
(`len` and slicing count characters). -/
def truncatePy (s : String) : String :=
  if s.length > 250000 then String.mk (s.data.take 250000) ++ "\n<<TRUNCATED>>\n" else s

/-- `render_tree(root, files_sorted)`: two spaces per depth level, showing
only the base name; for the canonical relative paths this walk produces,
`len(Path(rel).parts) - 1` is the number of `/` separators. -/
def render_tree (rootName : String) (files_sorted : List PyFile) : String :=
  String.intercalate "\n"
    (["```text", rootName ++ "/"] ++
      files_sorted.map (fun f =>
        String.mk (List.replicate (2 * f.rel.count '/') ' ') ++ String.mk (lastSeg f.rel)) ++
      ["```"])

/-- One per-file section (line 172):
`f"\n### \x60{rel}\x60\n\x60\x60\x60{fence_lang}\n{text}\n\x60\x60\x60\n"`
with `fence_lang = p.suffix.lstrip(".")`. -/
def fileSection (f : PyFile) : String :=
  "\n### `" ++ String.mk f.rel ++ "`\n```" ++
    String.mk ((pySuffix (lastSeg f.raw)).dropWhile (fun c => c = '.')) ++ "\n" ++
    truncatePy f.content ++ "\n```\n"

/-- `big_text = "\n".join(sections)` for an already selected-and-sorted file
list; `builtTs` stands for the `datetime.utcnow().isoformat()` value the run
observes. -/
def build_pack_document_of (rootStr rootName builtTs : String)
    (files_sorted : List PyFile) : String :=
  String.intercalate "\n"
    (["# Project Context Pack\n\n- Root: `" ++ rootStr ++ "`\n- Built: " ++ builtTs ++ "Z\n",
      "## Repository Tree (filtered)\n" ++ render_tree rootName files_sorted ++ "\n",
      "## Note on Exclusions\nThis pack was generated with `.gptignore`/defaults to skip large, binary, or secret files.\n",
      "## Files\n"] ++ files_sorted.map fileSection)

/-- The assembled `big_text` of `build_pack` as a function of the walk, the
settings and the observed build timestamp. -/
def build_pack_document (rootStr rootName builtTs : String) (walk : List Entry)
    (ignore exts force : List (List Char)) : String :=
  build_pack_document_of rootStr rootName builtTs (build_pack_files walk ignore exts force)

/-- Modelled from the spec: SHA-256 (`hashlib`) is an external primitive —
§1 lists it among the out-of-scope "thin wrappers".  The manifest's
`sha256` field is some fixed function of the document's UTF-8 bytes
(`hashlib.sha256(big_text.encode("utf-8")).hexdigest()`), and only that
functionality — equal bytes give an equal digest — is used below, so the
byte sequence itself stands in for the digest. -/
def manifestSha (document : String) : List Nat :=
  utf8Encode (document.data.map Char.toNat)

/-! ## SecretRedactor: `REPLACERS` and `redact_string`
(redact_secrets.py, lines 30-35 and 50-54)

The two patterns are compiled into dedicated matchers.  Both are
deterministic: the four key-name alternatives start with distinct letters,
`\s*` is followed by a non-space literal, and the character class
`[^\x27"\n]+` excludes exactly the quote characters the pattern continues
with, so CPython's backtracking can never revise a committed choice except
for the optional `[-_ ]?` separator and the optional opening quote of the
second pattern — both handled explicitly below.  `re.sub` scans the
original text left to right, replacing non-overlapping matches and
continuing after each match's end. -/

/-- `\w` for the ASCII inputs of the claims. -/
def isWordChar (c : Char) : Bool := c.isAlphanum || c = '_'

/-- `\s` (ASCII). -/
def isPySpace (c : Char) : Bool :=
  c = ' ' || c = '\t' || c = '\n' || c = '\r' || c = '\x0b' || c = '\x0c'

/-- The word-boundary test `\b` before a key name: every alternative starts
with a letter, so the boundary holds iff the preceding character (if any)
is not a word character. -/
def noWordBefore : Option Char → Bool
  | none => true
  | some c => !isWordChar c

/-- Case-insensitive literal match (`(?i)`), returning the original
characters consumed (the patterns capture the key name as group 1). -/
def matchCI : List Char → List Char → Option (List Char × List Char)
  | [], s => some ([], s)
  | _ :: _, [] => none
  | l :: ls, c :: cs =>
    if c.toLower = l then (matchCI ls cs).map (fun p => (c :: p.1, p.2)) else none

/-- `api[-_ ]?key`: the greedy optional separator is taken when possible;
if `key` then fails, the no-separator alternative would have to match `key`
at the separator character and fails too. -/
def tryApiKey (s : List Char) : Option (List Char × List Char) :=
  match matchCI ['a', 'p', 'i'] s with
  | none => none
  | some (m1, r1) =>
    match r1 with
    | c :: r2 =>
      if c = '-' || c = '_' || c = ' ' then
        match matchCI ['k', 'e', 'y'] r2 with
        | some (m2, r3) => some (m1 ++ c :: m2, r3)
        | none => none
      else
        (matchCI ['k', 'e', 'y'] r1).map (fun p => (m1 ++ p.1, p.2))
    | [] => none

/-- `(api[-_ ]?key|secret|token|password)`, alternatives tried in order
(their first letters are distinct, so at most one can match). -/
def tryKeyName (s : List Char) : Option (List Char × List Char) :=
  match tryApiKey s with
  | some r => some r
  | none =>
    match matchCI "secret".data s with
    | some r => some r
    | none =>
      match matchCI "token".data s with
      | some r => some r
      | none => matchCI "password".data s

def isQuoteChar (c : Char) : Bool := c = '\'' || c = '"'

/-- The value class `[^\x27"\n]`. -/
def isValChar (c : Char) : Bool := !isQuoteChar c && c != '\n'

def redactedText : List Char := "<REDACTED>".data

/-- First replacer:
pattern `(?i)\b(api[-_ ]?key|secret|token|password)\s*=\s*([\x27"])[^\x27"\n]+([\x27"])`,
replacement `\1=\2<REDACTED>\3`.  On success: the replacement text, the last
character of the matched span (for the next `\b` test) and the rest of the
input after the match. -/
def matchPat1 (prev : Option Char) (s : List Char) :
    Option (List Char × Char × List Char) :=
  if noWordBefore prev then
    match tryKeyName s with
    | none => none
    | some (key, r1) =>
      match r1.dropWhile isPySpace with
      | '=' :: r3 =>
        match r3.dropWhile isPySpace with
        | q :: r5 =>
          if isQuoteChar q then
            let value := r5.takeWhile isValChar
            if value.isEmpty then none
            else
              match r5.drop value.length with
              | q2 :: rest =>
                if isQuoteChar q2 then
                  some (key ++ '=' :: q :: redactedText ++ [q2], q2, rest)
                else none
              | [] => none
          else none
        | [] => none
      | _ => none
  else none

/-- Second replacer:
pattern `(?i)\b(api[-_ ]?key|secret|token|password)\s*[:]\s*[\x27"]?[^\x27"\n]+`,
replacement `\1: <REDACTED>`.  The optional opening quote is taken greedily;
if no value character follows it, the quoteless alternative would have to
start the value class at the quote itself and fails. -/
def matchPat2 (prev : Option Char) (s : List Char) :
    Option (List Char × Char × List Char) :=
  if noWordBefore prev then
    match tryKeyName s with
    | none => none
    | some (key, r1) =>
      match r1.dropWhile isPySpace with
      | ':' :: r3 =>
        let r4 := r3.dropWhile isPySpace
        match r4 with
        | q :: r5 =>
          if isQuoteChar q then
            let value := r5.takeWhile isValChar
            if value.isEmpty then none
            else some (key ++ ':' :: ' ' :: redactedText, value.getLastD ' ',
              r5.drop value.length)
          else
            let value := r4.takeWhile isValChar
            if value.isEmpty then none
            else some (key ++ ':' :: ' ' :: redactedText, value.getLastD ' ',
              r4.drop value.length)
        | [] => none
      | _ => none
  else none

/-- `rx.sub(repl, out)`: left-to-right scan; at each position try the
matcher, emit its replacement and resume after the match, otherwise copy
one character.  Every match consumes at least the key name (3 characters or
more), so `fuel = s.length` always suffices. -/
def subGo (m : Option Char → List Char → Option (List Char × Char × List Char)) :
    Nat → Option Char → List Char → List Char
  | 0, _, s => s
  | _ + 1, _, [] => []
  | fuel + 1, prev, c :: cs =>
    match m prev (c :: cs) with
    | some (rep, lastc, rest) => rep ++ subGo m fuel (some lastc) rest
    | none => c :: subGo m fuel (some c) cs

def pySub (m : Option Char → List Char → Option (List Char × Char × List Char))
    (s : List Char) : List Char :=
  subGo m s.length none s

/-- `redact_string(s)`: the two `REPLACERS` applied in order over the whole
text. -/
def redact_string (s : List Char) : List Char :=
  pySub matchPat2 (pySub matchPat1 s)

/-! ## SecretRedactor, mirror mode: `main` of redact_secrets.py
(lines 86-106), `is_text_file`, `redact_to_mirror` -/

def TEXT_EXTS : List String :=
  [".py", ".json", ".yml", ".yaml", ".toml", ".ini", ".env", ".html", ".htm",
   ".md", ".txt", ".js", ".ts", ".css", ".scss", ".tsx", ".jsx"]

/-- `is_text_file(p)` (redact_secrets.py, lines 37-43):
`p.suffix.lower() in TEXT_EXTS` or a suffixless dotfile. -/
def is_text_file (name : List Char) : Bool :=
  TEXT_EXTS.any (fun e => (pySuffix name).map Char.toLower == e.data) ||
    (name.head? == some '.' && pySuffix name == [])

/-- A file below the redaction source root: its relative path and, when
`read_text(encoding="utf-8")` succeeds, the decoded text. -/
structure SrcFile where
  rel : List Char
  text? : Option (List Char)
deriving DecidableEq, Repr

/-- A mutation of the destination tree performed by `redact_to_mirror`:
either writing redacted text to `dst_root / rel` or copying the source file
verbatim to `dst_root / rel` (`shutil.copy2`). -/
inductive MWrite where
  | textWrite (rel : List Char) (content : List Char)
  | rawCopy (rel : List Char)
deriving DecidableEq, Repr

/-- `redact_to_mirror(src_root, dst_root, p)` (lines 68-84): text-classified
readable files are redacted and written; unreadable or non-text files are
copied verbatim. -/
def redact_to_mirror (f : SrcFile) : MWrite :=
  if is_text_file (lastSeg f.rel) then
    match f.text? with
    | some s => .textWrite f.rel (redact_string s)
    | none => .rawCopy f.rel
  else .rawCopy f.rel

/-- The mirror branch of `main` (lines 92-106) as a function of the
observable state: whether the source root exists, the files below it,
whether the destination root exists and its `iterdir()` listing.  Returns
the exit code and the list of writes performed under the destination root
(the branch never touches the source tree). -/
def redact_main_mirror (srcExists : Bool) (srcFiles : List SrcFile)
    (dstExists : Bool) (dstEntries : List (List Char)) : Nat × List MWrite :=
  if !srcExists then (2, [])
  else if dstExists && !dstEntries.isEmpty then (3, [])
  else (0, srcFiles.map redact_to_mirror)

end PackSpec

namespace PackSpec

/-! ### Chunker lemmas -/

theorem utf8EncodeChar_ne_nil (c : Nat) : utf8EncodeChar c ≠ [] := by
  unfold utf8EncodeChar
  split <;> try simp
  split <;> try simp
  split <;> simp

theorem utf8EncodeChar_getLast_lt (c : Nat) :
    ∀ b, (utf8EncodeChar c).getLast? = some b → b < 192 := by
  intro b
  unfold utf8EncodeChar
  split
  · rename_i h; intro hb; simp at hb; omega
  · split
    · intro hb; simp [List.getLast?] at hb; omega
    · split
      · intro hb; simp [List.getLast?] at hb; omega
      · intro hb; simp [List.getLast?] at hb; omega

theorem utf8Encode_ne_nil (c : Nat) (cs : List Nat) : utf8Encode (c :: cs) ≠ [] := by
  unfold utf8Encode
  simp only [List.map_cons, List.flatten_cons]
  intro h
  rcases List.append_eq_nil.mp h with ⟨h1, _⟩
  exact utf8EncodeChar_ne_nil c h1

/-- Every nonempty UTF-8 encoding ends in a byte below 0xC0 (an ASCII byte or
a continuation byte) — never in a dangling leader byte. -/
theorem utf8Encode_getLast_lt :
    ∀ cs b, (utf8Encode cs).getLast? = some b → b < 192 := by
  intro cs
  induction cs with
  | nil => intro b h; simp [utf8Encode] at h
  | cons c rest ih =>
    intro b h
    unfold utf8Encode at h
    simp only [List.map_cons, List.flatten_cons] at h
    cases hr : rest with
    | nil =>
      subst hr
      simp [utf8Encode] at h
      exact utf8EncodeChar_getLast_lt c b h
    | cons d ds =>
      subst hr
      rw [show (List.map utf8EncodeChar (d :: ds)).flatten = utf8Encode (d :: ds) from rfl,
        List.getLast?_append_of_ne_nil _ (utf8Encode_ne_nil d ds)] at h
      exact ih b h

/-- The first chunk that the chunker produces on "aéa" with max-bytes 2 is
not valid UTF-8: it ends with the dangling leader byte 0xC3 = 195. -/
theorem not_encodable_97_195 : ¬ Utf8Encodable [97, 195] := by
  rintro ⟨cs, -, henc⟩
  have h195 : (utf8Encode cs).getLast? = some 195 := by rw [henc]; rfl
  have := utf8Encode_getLast_lt cs 195 h195
  omega

theorem backoff_le (data : List Nat) (i : Nat) : ∀ j, backoff data i j ≤ j := by
  intro j
  induction j with
  | zero => simp [backoff]
  | succ j ih =>
    unfold backoff
    split
    · omega
    · omega

theorem splitGo_join (data : List Nat) (m : Nat) :
    ∀ fuel i chunks, splitGo data m fuel i = some chunks →
      chunks.flatten = data.drop i := by
  intro fuel
  induction fuel with
  | zero =>
    intro i chunks h
    unfold splitGo at h
    split at h
    · cases h
      simp [List.drop_eq_nil_of_le]
      omega
    · cases h
  | succ fuel ih =>
    intro i chunks h
    unfold splitGo at h
    split at h
    · cases h
      simp [List.drop_eq_nil_of_le]
      omega
    · rename_i hlt
      simp only at h
      split at h
      · rename_i hij
        set j := backoff data i (min (i + m) data.length) with hj
        cases hrec : splitGo data m fuel j with
        | none => rw [hrec] at h; cases h
        | some rest =>
          rw [hrec] at h
          cases h
          have hflat := ih j rest hrec
          simp only [List.flatten_cons, hflat]
          have : (data.drop i).drop (j - i) = data.drop j := by
            rw [List.drop_drop]
            congr 1
            omega
          calc ((data.drop i).take (j - i)) ++ data.drop j
              = ((data.drop i).take (j - i)) ++ ((data.drop i).drop (j - i)) := by rw [this]
            _ = data.drop i := List.take_append_drop _ _
      · cases h

/-! ### Claim theorems for the chunker -/

/-- C1. Chunk round-trip: whenever `split_by_bytes_utf8(text, maxBytes)`
returns a list of byte buffers (`some chunks`), concatenating them in order
yields exactly the UTF-8 encoding of the input text, byte for byte. -/
theorem chunk_round_trip (text : List Nat) (maxBytes : Nat) (chunks : List (List Nat))
    (_hpos : 0 < maxBytes)
    (hret : split_by_bytes_utf8 text maxBytes = some chunks) :
    chunks.flatten = utf8Encode text := by
  have := splitGo_join (utf8Encode text) maxBytes (utf8Encode text).length 0 chunks hret
  simpa using this

/-- Witness for C1 at text "hi" (code points 104, 105) and maxBytes 1. -/
theorem chunk_round_trip_witness :
    0 < 1 ∧ split_by_bytes_utf8 [104, 105] 1 = some [[104], [105]] ∧
      ([[104], [105]] : List (List Nat)).flatten = utf8Encode [104, 105] :=
  ⟨by decide, by decide, chunk_round_trip [104, 105] 1 [[104], [105]] (by decide) (by decide)⟩

/-- C2 (refuted; evaluation at the failing input). On the text "aéa"
(code points 97, 233, 97 — valid scalar values) with maxBytes 2, the chunker
returns the chunks `[0x61, 0xC3]` and `[0xA9, 0xC3 ... ]`; the first chunk
splits the two-byte encoding `0xC3 0xA9` of é, so it is not a valid UTF-8
byte sequence.  The backward scan checks `data[j-1]` instead of `data[j]`
and therefore stops immediately after a leader byte — inside the
character. -/
theorem chunk_boundary_violated :
    split_by_bytes_utf8 [97, 233, 97] 2 = some [[97, 195], [169, 97]] ∧
      ¬ Utf8Encodable [97, 195] :=
  ⟨by decide, not_encodable_97_195⟩

/-- C3 (refuted; evaluation at the failing input). On "aéa" with maxBytes 2
the chunker returns 2 chunks, but every decomposition of the encoded bytes
`[97, 195, 169, 97]` into valid-UTF-8 chunks of at most 2 bytes needs at
least 3 chunks — so the produced chunk count is *below* the minimum count
for which the round-trip and boundary properties can simultaneously hold
(the produced chunks violate the boundary property). -/
theorem chunk_count_not_minimal :
    split_by_bytes_utf8 [97, 233, 97] 2 = some [[97, 195], [169, 97]] ∧
      (∀ parts : List (List Nat), parts.flatten = [97, 195, 169, 97] →
        (∀ p ∈ parts, Utf8Encodable p ∧ p.length ≤ 2) → 3 ≤ parts.length) := by
  refine ⟨by decide, ?_⟩
  intro parts hflat hall
  match parts with
  | [] => simp at hflat
  | [p] =>
    have := (hall p (by simp)).2
    simp at hflat
    rw [hflat] at this
    simp at this
  | [p, q] =>
    exfalso
    have hpq : p ++ q = [97, 195, 169, 97] := by simpa using hflat
    have hp2 := (hall p (by simp)).2
    have hq2 := (hall q (by simp)).2
    have hlen : p.length + q.length = 4 := by
      have := congrArg List.length hpq
      simpa using this
    have hplen : p.length = 2 := by omega
    have hpeq : p = [97, 195] := by
      have htake : (p ++ q).take p.length = p := List.take_left p q
      rw [hpq, hplen] at htake
      exact htake.symm
    exact not_encodable_97_195 (hpeq ▸ (hall p (by simp)).1)
  | p :: q :: r :: rest => simp [List.length_cons]

/-- C5 (refuted; evaluation at the failing input). On the single character
"é" (code point 233, whose UTF-8 encoding `0xC3 0xA9` is 2 bytes) with
maxBytes 1, the chunking loop reaches a state it cannot advance from
(`j = i`), so the Python function loops forever instead of terminating with
a configuration error; the divergence is modelled as `none`. -/
theorem chunker_diverges_on_small_max :
    split_by_bytes_utf8 [233] 1 = none := by decide

theorem unixc_idem (c : Char) : unixc (unixc c) = unixc c := by
  by_cases h : c = '\\'
  · subst h; rfl
  · simp [unixc, h]

theorem map_unixc_idem (l : List Char) : (l.map unixc).map unixc = l.map unixc := by
  rw [List.map_map]
  apply List.map_congr_left
  intro a _
  exact unixc_idem a

theorem isPrefixOf_exists : ∀ (p l : List Char), p.isPrefixOf l = true ↔ ∃ t, l = p ++ t := by
  intro p
  induction p with
  | nil => intro l; simp [List.isPrefixOf]
  | cons a as ih =>
    intro l
    cases l with
    | nil => simp [List.isPrefixOf]
    | cons b bs =>
      simp only [List.isPrefixOf, Bool.and_eq_true, beq_iff_eq, ih bs]
      constructor
      · rintro ⟨hab, t, ht⟩
        exact ⟨t, by rw [hab, ht]; rfl⟩
      · rintro ⟨t, ht⟩
        injection ht with h1 h2
        exact ⟨h1.symm, t, h2⟩

theorem isPrefixOf_trans {a b c : List Char} (h1 : a.isPrefixOf b = true)
    (h2 : b.isPrefixOf c = true) : a.isPrefixOf c = true := by
  rcases (isPrefixOf_exists a b).mp h1 with ⟨t1, ht1⟩
  rcases (isPrefixOf_exists b c).mp h2 with ⟨t2, ht2⟩
  exact (isPrefixOf_exists a c).mpr ⟨t1 ++ t2, by rw [ht2, ht1, List.append_assoc]⟩

theorem match_ignore_of_dir_rule {pat rel : List Char} {patterns : List (List Char)}
    (hmem : pat ∈ patterns) (hslash : pat.getLast? = some '/')
    (hpre : pat.dropLast.isPrefixOf (rel.map unixc) = true) :
    match_ignore rel patterns = true := by
  unfold match_ignore
  simp only [List.any_eq_true]
  refine ⟨pat, hmem, ?_⟩
  simp [hslash, hpre]

theorem mem_iter_repo_files {walk : List Entry} {ign : List (List Char)} {x : PyFile}
    (hx : x ∈ iter_repo_files walk ign) :
    match_ignore x.rel ign = false ∧ x.rel = x.raw.map unixc := by
  induction walk with
  | nil => simp [iter_repo_files] at hx
  | cons e rest ih =>
    cases e with
    | dir d =>
      unfold iter_repo_files at hx
      split at hx <;> exact ih hx
    | file r c =>
      unfold iter_repo_files at hx
      split at hx
      · exact ih hx
      · rename_i hm
        rcases List.mem_cons.mp hx with h | h
        · subst h
          exact ⟨eq_false_of_ne_true hm, rfl⟩
        · exact ih h

theorem iter_repo_files_mem_intro {walk : List Entry} {ign : List (List Char)}
    {r : List Char} {c : String}
    (hw : Entry.file r c ∈ walk) (hm : match_ignore (r.map unixc) ign = false) :
    mkFile r c ∈ iter_repo_files walk ign := by
  induction walk with
  | nil => simp at hw
  | cons e rest ih =>
    rcases List.mem_cons.mp hw with he | he
    · subst he
      unfold iter_repo_files
      rw [hm]
      simp
    · cases e with
      | dir d => unfold iter_repo_files; split <;> exact ih he
      | file r2 c2 =>
        unfold iter_repo_files
        split
        · exact ih he
        · exact List.mem_cons_of_mem _ (ih he)

theorem insortFile_perm (x : PyFile) (l : List PyFile) : (insortFile x l).Perm (x :: l) := by
  induction l with
  | nil => exact List.Perm.refl _
  | cons y ys ih =>
    unfold insortFile
    split
    · exact (ih.cons y).trans (List.Perm.swap x y ys)
    · exact List.Perm.refl _

theorem foldl_insort_perm :
    ∀ (l acc : List PyFile), (l.foldl (fun a x => insortFile x a) acc).Perm (acc ++ l) := by
  intro l
  induction l with
  | nil => intro acc; simp
  | cons x xs ih =>
    intro acc
    simp only [List.foldl_cons]
    have h1 := ih (insortFile x acc)
    have h2 : (insortFile x acc ++ xs).Perm ((x :: acc) ++ xs) :=
      (insortFile_perm x acc).append_right xs
    exact (h1.trans h2).trans List.perm_middle.symm

theorem sortByRel_perm (l : List PyFile) : (sortByRel l).Perm l := by
  simpa using foldl_insort_perm l []

theorem mem_build_pack_files {walk : List Entry} {ign exts force : List (List Char)}
    {x : PyFile} (hx : x ∈ build_pack_files walk ign exts force) :
    x ∈ iter_repo_files walk ign ∧
      (is_allowed_file x exts ||
        (normForced force).any (fun fi => fi.isPrefixOf x.rel)) = true := by
  unfold build_pack_files at hx
  have hx2 := (sortByRel_perm _).mem_iff.mp hx
  exact ⟨(List.mem_filter.mp hx2).1, (List.mem_filter.mp hx2).2⟩

theorem build_pack_files_mem_intro {walk : List Entry} {ign exts force : List (List Char)}
    {x : PyFile} (hiter : x ∈ iter_repo_files walk ign)
    (hsel : (is_allowed_file x exts ||
      (normForced force).any (fun fi => fi.isPrefixOf x.rel)) = true) :
    x ∈ build_pack_files walk ign exts force := by
  unfold build_pack_files
  exact (sortByRel_perm _).mem_iff.mpr (List.mem_filter.mpr ⟨hiter, hsel⟩)


/-! ### Claim theorems for the ignore matcher and file selector -/

/-- C6. Ignore pruning of contents: if some ignore rule is a
directory-prefix rule (ends in `/`) matched by the directory `d` (the test
`iter_repo_files` applies to directories), then no selected file's relative
path lies inside `d`: every file under `d` is absent from the selected set,
whatever the allow-list and force-include settings. -/
theorem ignore_pruning (walk : List Entry) (ignore exts force : List (List Char))
    (pat d : List Char) (x : PyFile)
    (hmem : pat ∈ ignore) (hslash : pat.getLast? = some '/')
    (hdir : pat.dropLast.isPrefixOf ((d.map unixc) ++ ['/']) = true)
    (hx : x ∈ build_pack_files walk ignore exts force) :
    ((d.map unixc) ++ ['/']).isPrefixOf x.rel = false := by
  rcases mem_build_pack_files hx with ⟨hiter, -⟩
  rcases mem_iter_repo_files hiter with ⟨hfalse, hraw⟩
  cases hb : ((d.map unixc) ++ ['/']).isPrefixOf x.rel with
  | false => rfl
  | true =>
    exfalso
    have hidem : x.rel.map unixc = x.rel := by rw [hraw, map_unixc_idem]
    have htr : pat.dropLast.isPrefixOf (x.rel.map unixc) = true := by
      rw [hidem]
      exact isPrefixOf_trans hdir hb
    have := match_ignore_of_dir_rule hmem hslash htr
    rw [hfalse] at this
    cases this

/-- Witness for C6: rule "build/", tree with a.py, the build directory and
build/s.py; a.py is selected and lies outside build/. -/
theorem ignore_pruning_witness :
    ("build/".data ∈ ["build/".data]) ∧
    ("build/".data.getLast? = some '/') ∧
    ("build/".data.dropLast.isPrefixOf (("build".data.map unixc) ++ ['/']) = true) ∧
    (mkFile "a.py".data "x" ∈ build_pack_files
      [Entry.file "a.py".data "x", Entry.dir "build".data, Entry.file "build/s.py".data "y"]
      ["build/".data] [".py".data] []) ∧
    ((("build".data.map unixc) ++ ['/']).isPrefixOf (mkFile "a.py".data "x").rel = false) :=
  ⟨by decide, by decide, by decide, by decide,
    ignore_pruning
      [Entry.file "a.py".data "x", Entry.dir "build".data, Entry.file "build/s.py".data "y"]
      ["build/".data] [".py".data] [] "build/".data "build".data
      (mkFile "a.py".data "x") (by decide) (by decide) (by decide) (by decide)⟩

/-- C7. Force-include override with ignore precedence: a walked file whose
normalized relative path extends one of the normalized force-include
entries is selected exactly when no ignore rule matches it — in particular
it is selected even when its extension is outside the allow-list, and it is
never selected when an ignore rule matches (ignore takes precedence). -/
theorem force_include_override (walk : List Entry) (ign exts force : List (List Char))
    (r : List Char) (c : String)
    (hw : Entry.file r c ∈ walk)
    (hforce : (normForced force).any (fun fi => fi.isPrefixOf (r.map unixc)) = true) :
    (mkFile r c ∈ build_pack_files walk ign exts force ↔
      match_ignore (r.map unixc) ign = false) := by
  constructor
  · intro hmem
    rcases mem_build_pack_files hmem with ⟨hiter, -⟩
    exact (mem_iter_repo_files hiter).1
  · intro hm
    exact build_pack_files_mem_intro (iter_repo_files_mem_intro hw hm)
      (by rw [Bool.or_eq_true]; right; exact hforce)

/-- Witness for C7: tpl/t.qqq has an extension outside the allow-list but
lies under the forced entry "tpl"; it is selected (no ignore rule matches),
as the forward implication computes. -/
theorem force_include_override_witness :
    (Entry.file "tpl/t.qqq".data "T" ∈ [Entry.file "tpl/t.qqq".data "T"]) ∧
    ((normForced ["tpl".data]).any
      (fun fi => fi.isPrefixOf ("tpl/t.qqq".data.map unixc)) = true) ∧
    (mkFile "tpl/t.qqq".data "T" ∈
        build_pack_files [Entry.file "tpl/t.qqq".data "T"] [] [".py".data] ["tpl".data] ↔
      match_ignore ("tpl/t.qqq".data.map unixc) [] = false) :=
  ⟨by decide, by decide,
    force_include_override [Entry.file "tpl/t.qqq".data "T"] [] [".py".data] ["tpl".data]
      "tpl/t.qqq".data "T" (by decide) (by decide)⟩

/-- C10 (implicit). A directory-prefix ignore rule over-matches by plain
string prefix: removing its trailing slash, any candidate path whose
unix-normalized form merely starts with it is matched — e.g. the rule
"build/" also matches the root-level file "builder.py". -/
theorem dir_rule_overmatch (patterns : List (List Char)) (pat rel : List Char)
    (hmem : pat ∈ patterns) (hslash : pat.getLast? = some '/')
    (hpre : pat.dropLast.isPrefixOf (rel.map unixc) = true) :
    match_ignore rel patterns = true :=
  match_ignore_of_dir_rule hmem hslash hpre

/-- Witness for C10: "build/" matches the file "builder.py", which is not
inside the build directory. -/
theorem dir_rule_overmatch_witness :
    ("build/".data ∈ ["build/".data]) ∧
    ("build/".data.getLast? = some '/') ∧
    ("build/".data.dropLast.isPrefixOf ("builder.py".data.map unixc) = true) ∧
    match_ignore "builder.py".data ["build/".data] = true :=
  ⟨by decide, by decide, by decide,
    dir_rule_overmatch ["build/".data] "build/".data "builder.py".data
      (by decide) (by decide) (by decide)⟩

/-! ### Sorting and determinism lemmas -/

theorem strLe_total : ∀ a b : List Char, strLe a b = true ∨ strLe b a = true := by
  intro a
  induction a with
  | nil => intro b; left; rfl
  | cons x xs ih =>
    intro b
    cases b with
    | nil => right; rfl
    | cons y ys =>
      unfold strLe
      rcases Nat.lt_trichotomy x.toNat y.toNat with h | h | h
      · left; simp [h]
      · have hne1 : ¬ x.toNat < y.toNat := by omega
        have hne2 : ¬ y.toNat < x.toNat := by omega
        rcases ih ys with hl | hl
        · left; simp [hne1, hne2, hl]
        · right; simp [hne1, hne2, hl, h]
      · right; simp [h, Nat.lt_asymm h]

theorem strLe_trans : ∀ a b c : List Char,
    strLe a b = true → strLe b c = true → strLe a c = true := by
  intro a
  induction a with
  | nil => intro b c _ _; rfl
  | cons x xs ih =>
    intro b c hab hbc
    cases b with
    | nil => simp [strLe] at hab
    | cons y ys =>
      cases c with
      | nil => simp [strLe] at hbc
      | cons z zs =>
        unfold strLe at hab hbc ⊢
        split_ifs at hab hbc ⊢ <;> try omega
        all_goals try rfl
        all_goals exact ih ys zs hab hbc

theorem strLe_antisymm : ∀ a b : List Char,
    strLe a b = true → strLe b a = true → a = b := by
  intro a
  induction a with
  | nil =>
    intro b _ hba
    cases b with
    | nil => rfl
    | cons y ys => simp [strLe] at hba
  | cons x xs ih =>
    intro b hab hba
    cases b with
    | nil => simp [strLe] at hab
    | cons y ys =>
      unfold strLe at hab hba
      split_ifs at hab hba <;> try omega
      rename_i h1 h2
      have hxy : x = y := by
        apply Char.ext
        apply UInt32.ext
        have e1 : x.toNat = x.val.toNat := rfl
        have e2 : y.toNat = y.val.toNat := rfl
        omega
      rw [hxy, ih ys hab hba]

theorem pairwise_insortFile (x : PyFile) (l : List PyFile)
    (hl : l.Pairwise (fun a b => relLe a b = true)) :
    (insortFile x l).Pairwise (fun a b => relLe a b = true) := by
  induction l with
  | nil => simp [insortFile]
  | cons y ys ih =>
    rcases List.pairwise_cons.mp hl with ⟨hy, hys⟩
    unfold insortFile
    split
    · rename_i hyx
      apply List.pairwise_cons.mpr
      refine ⟨?_, ih hys⟩
      intro z hz
      have hz2 := (insortFile_perm x ys).mem_iff.mp hz
      rcases List.mem_cons.mp hz2 with h | h
      · subst h; exact hyx
      · exact hy z h
    · rename_i hyx
      have hxy : relLe x y = true := by
        rcases strLe_total x.rel y.rel with h | h
        · exact h
        · exact absurd h hyx
      apply List.pairwise_cons.mpr
      refine ⟨?_, hl⟩
      intro z hz
      rcases List.mem_cons.mp hz with h | h
      · subst h; exact hxy
      · exact strLe_trans x.rel y.rel z.rel hxy (hy z h)

theorem pairwise_foldl_insort : ∀ (l acc : List PyFile),
    acc.Pairwise (fun a b => relLe a b = true) →
    (l.foldl (fun a x => insortFile x a) acc).Pairwise (fun a b => relLe a b = true) := by
  intro l
  induction l with
  | nil => intro acc h; simpa using h
  | cons x xs ih => intro acc h; exact ih _ (pairwise_insortFile x acc h)

theorem pairwise_sortByRel (l : List PyFile) :
    (sortByRel l).Pairwise (fun a b => relLe a b = true) :=
  pairwise_foldl_insort l [] (by simp)

theorem eq_of_perm_sorted_nodup : ∀ (l1 l2 : List PyFile), l1.Perm l2 →
    l1.Pairwise (fun a b => relLe a b = true) →
    l2.Pairwise (fun a b => relLe a b = true) →
    (l1.map PyFile.rel).Nodup → l1 = l2 := by
  intro l1
  induction l1 with
  | nil =>
    intro l2 hp _ _ _
    exact (hp.symm.eq_nil).symm
  | cons a t1 ih =>
    intro l2 hp s1 s2 nd
    cases l2 with
    | nil => exact absurd hp.eq_nil (by simp)
    | cons b t2 =>
      have hab : a = b := by
        by_contra hne
        have ha2 : a ∈ b :: t2 := hp.mem_iff.mp (List.mem_cons_self a t1)
        have hb1 : b ∈ a :: t1 := hp.mem_iff.mpr (List.mem_cons_self b t2)
        have ha3 : a ∈ t2 := by
          rcases List.mem_cons.mp ha2 with h | h
          · exact absurd h hne
          · exact h
        have hb3 : b ∈ t1 := by
          rcases List.mem_cons.mp hb1 with h | h
          · exact absurd h.symm hne
          · exact h
        have h1 : relLe a b = true := (List.pairwise_cons.mp s1).1 b hb3
        have h2 : relLe b a = true := (List.pairwise_cons.mp s2).1 a ha3
        have hrel : a.rel = b.rel := strLe_antisymm _ _ h1 h2
        exact (List.nodup_cons.mp nd).1 (hrel ▸ List.mem_map_of_mem PyFile.rel hb3)
      subst hab
      have ht : t1.Perm t2 := hp.cons_inv
      rw [ih t2 ht (List.pairwise_cons.mp s1).2 (List.pairwise_cons.mp s2).2
        (List.nodup_cons.mp nd).2]

theorem iter_repo_files_eq (walk : List Entry) (ign : List (List Char)) :
    iter_repo_files walk ign =
      (walk.filterMap entryFile).filter (fun f => !match_ignore f.rel ign) := by
  induction walk with
  | nil => rfl
  | cons e rest ih =>
    cases e with
    | dir d =>
      unfold iter_repo_files
      rw [ite_self]
      simpa [entryFile, List.filterMap_cons] using ih
    | file r c =>
      unfold iter_repo_files
      simp only [entryFile, List.filterMap_cons]
      rw [List.filter_cons]
      cases hm : match_ignore (r.map unixc) ign
      · simp only [hm, Bool.false_eq_true, if_false]
        have : (!match_ignore (mkFile r c).rel ign) = true := by simp [mkFile, hm]
        rw [if_pos this, ih]
      · simp only [hm, if_true]
        have : (!match_ignore (mkFile r c).rel ign) = false := by simp [mkFile, hm]
        rw [this]
        simpa using ih

theorem build_pack_files_perm_eq (walk1 walk2 : List Entry)
    (ign exts force : List (List Char))
    (hperm : walk1.Perm walk2)
    (hnodup : ((walk1.filterMap entryFile).map PyFile.rel).Nodup) :
    build_pack_files walk1 ign exts force = build_pack_files walk2 ign exts force := by
  have hiterperm : (iter_repo_files walk1 ign).Perm (iter_repo_files walk2 ign) := by
    rw [iter_repo_files_eq, iter_repo_files_eq]
    exact (hperm.filterMap entryFile).filter _
  unfold build_pack_files
  apply eq_of_perm_sorted_nodup
  · exact (sortByRel_perm _).trans ((hiterperm.filter _).trans (sortByRel_perm _).symm)
  · exact pairwise_sortByRel _
  · exact pairwise_sortByRel _
  · have hsub : ((iter_repo_files walk1 ign).filter
        (fun f => is_allowed_file f exts ||
          (normForced force).any (fun fi => fi.isPrefixOf f.rel))).Sublist
        ((walk1.filterMap entryFile)) := by
      rw [iter_repo_files_eq]
      exact (List.filter_sublist _).trans (List.filter_sublist _)
    have hnd : (((iter_repo_files walk1 ign).filter
        (fun f => is_allowed_file f exts ||
          (normForced force).any (fun fi => fi.isPrefixOf f.rel))).map PyFile.rel).Nodup :=
      List.Nodup.sublist (hsub.map PyFile.rel) hnodup
    have hmp : ((sortByRel ((iter_repo_files walk1 ign).filter
        (fun f => is_allowed_file f exts ||
          (normForced force).any (fun fi => fi.isPrefixOf f.rel)))).map PyFile.rel).Perm
        (((iter_repo_files walk1 ign).filter
        (fun f => is_allowed_file f exts ||
          (normForced force).any (fun fi => fi.isPrefixOf f.rel))).map PyFile.rel) :=
      (sortByRel_perm _).map PyFile.rel
    exact hmp.nodup_iff.mpr hnd


/-! ### Claim theorems for determinism (C4) -/

/-- C4 (refuted; the claim as stated is false). Two runs of the pack
pipeline on an unchanged one-file tree with identical settings, whose
`datetime.utcnow()` observations differ by one second, produce assembled
documents that are not byte-identical: the document embeds the build
timestamp in its header line, which is also part of the hashed text. -/
theorem determinism_fails_across_timestamps :
    build_pack_document "r" "r" "2024-01-01T00:00:00" [Entry.file "a.py".data "print(1)"]
        [] [".py".data] [] ≠
      build_pack_document "r" "r" "2024-01-01T00:00:01" [Entry.file "a.py".data "print(1)"]
        [] [".py".data] [] := by decide

/-- C4 (amended). Runs of the pack pipeline on an unchanged tree (same
entries, in any filesystem enumeration order, with distinct file paths)
with identical settings and the same observed build timestamp produce a
byte-identical assembled document and an identical manifest content hash:
the selection sorts by relative path, so the enumeration order does not
matter. -/
theorem determinism_same_timestamp (rootStr rootName builtTs : String)
    (walk1 walk2 : List Entry) (ignore exts force : List (List Char))
    (hperm : walk1.Perm walk2)
    (hnodup : ((walk1.filterMap entryFile).map PyFile.rel).Nodup) :
    build_pack_document rootStr rootName builtTs walk1 ignore exts force =
      build_pack_document rootStr rootName builtTs walk2 ignore exts force ∧
    manifestSha (build_pack_document rootStr rootName builtTs walk1 ignore exts force) =
      manifestSha (build_pack_document rootStr rootName builtTs walk2 ignore exts force) := by
  have h := build_pack_files_perm_eq walk1 walk2 ignore exts force hperm hnodup
  unfold build_pack_document
  rw [h]
  exact ⟨rfl, rfl⟩

/-- Witness for the amended C4: the same two files enumerated in the two
possible orders give the same document and hash. -/
theorem determinism_same_timestamp_witness :
    ([Entry.file "a.py".data "x", Entry.file "b.md".data "y"].Perm
      [Entry.file "b.md".data "y", Entry.file "a.py".data "x"]) ∧
    ((([Entry.file "a.py".data "x", Entry.file "b.md".data "y"].filterMap entryFile).map
      PyFile.rel).Nodup) ∧
    (build_pack_document "r" "r" "TS" [Entry.file "a.py".data "x", Entry.file "b.md".data "y"]
        [] [".py".data, ".md".data] [] =
      build_pack_document "r" "r" "TS" [Entry.file "b.md".data "y", Entry.file "a.py".data "x"]
        [] [".py".data, ".md".data] [] ∧
    manifestSha (build_pack_document "r" "r" "TS"
        [Entry.file "a.py".data "x", Entry.file "b.md".data "y"] [] [".py".data, ".md".data] []) =
      manifestSha (build_pack_document "r" "r" "TS"
        [Entry.file "b.md".data "y", Entry.file "a.py".data "x"] [] [".py".data, ".md".data] [])) :=
  ⟨by decide, by decide,
    determinism_same_timestamp "r" "r" "TS"
      [Entry.file "a.py".data "x", Entry.file "b.md".data "y"]
      [Entry.file "b.md".data "y", Entry.file "a.py".data "x"]
      [] [".py".data, ".md".data] [] (by decide) (by decide)⟩

/-! ### Claim theorems for the redactor -/

/-- C8 (counterexample to the claim as stated). On the exact line
`API_KEY = "sk-12345"` the redactor does not produce
`API_KEY = "<REDACTED>"`: the replacement template `\1=\2<REDACTED>\3`
re-emits the assignment without the whitespace the pattern's `\s*=\s*`
consumed. -/
theorem redact_example_spaces_lost :
    redact_string "API_KEY = \"sk-12345\"".data ≠ "API_KEY = \"<REDACTED>\"".data := by
  decide

/-- C8 (amended). Redacting the line `API_KEY = "sk-12345"` yields
`API_KEY="<REDACTED>"`: the matched key name and the surrounding quote
characters are preserved and the value is replaced by the fixed marker,
but the whitespace around `=` is collapsed. -/
theorem redact_example :
    redact_string "API_KEY = \"sk-12345\"".data = "API_KEY=\"<REDACTED>\"".data := by
  decide

/-- C9. Mirror-destination safety: whenever the destination root exists and
has at least one entry, the mirror run stops with exit code 3 before
performing any write — the destination is untouched and (as in every mirror
run) the source tree is never written to. -/
theorem mirror_destination_safety (srcFiles : List SrcFile)
    (dstEntries : List (List Char)) (hne : dstEntries ≠ []) :
    redact_main_mirror true srcFiles true dstEntries = (3, []) := by
  unfold redact_main_mirror
  have : dstEntries.isEmpty = false := by
    cases dstEntries with
    | nil => exact absurd rfl hne
    | cons a l => rfl
  simp [this]

/-- Witness for C9: a destination containing one entry makes the run fail
with exit code 3 and no writes, whatever the source holds. -/
theorem mirror_destination_safety_witness :
    (["old.txt".data] ≠ ([] : List (List Char))) ∧
    redact_main_mirror true [⟨"a.py".data, some "API_KEY = \"sk-12345\"".data⟩]
      true ["old.txt".data] = (3, []) :=
  ⟨by decide,
    mirror_destination_safety [⟨"a.py".data, some "API_KEY = \"sk-12345\"".data⟩]
      ["old.txt".data] (by decide)⟩

/-- The true half of the chunk-size-bound property: every chunk a
terminating run produces has at most `maxBytes` bytes (the cut point only
moves backwards from `min (i + maxBytes) data.length`). -/
theorem splitGo_chunk_le (data : List Nat) (m : Nat) :
    ∀ fuel i chunks, splitGo data m fuel i = some chunks →
      ∀ p ∈ chunks, p.length ≤ m := by
  intro fuel
  induction fuel with
  | zero =>
    intro i chunks h
    unfold splitGo at h
    split at h
    · cases h; simp
    · cases h
  | succ fuel ih =>
    intro i chunks h
    unfold splitGo at h
    split at h
    · cases h; simp
    · simp only at h
      split at h
      · rename_i hij
        cases hrec : splitGo data m fuel (backoff data i (min (i + m) data.length)) with
        | none => rw [hrec] at h; cases h
        | some rest =>
          rw [hrec] at h
          cases h
          intro p hp
          rcases List.mem_cons.mp hp with hp | hp
          · subst hp
            have hle := backoff_le data i (min (i + m) data.length)
            have : ((data.drop i).take
                (backoff data i (min (i + m) data.length) - i)).length ≤
                backoff data i (min (i + m) data.length) - i := by
              simp
            omega
          · exact ih _ rest hrec p hp
      · cases h

/-- Size bound for `split_by_bytes_utf8` itself. -/
theorem split_by_bytes_utf8_chunk_le (text : List Nat) (maxBytes : Nat)
    (chunks : List (List Nat))
    (hret : split_by_bytes_utf8 text maxBytes = some chunks) :
    ∀ p ∈ chunks, p.length ≤ maxBytes :=
  splitGo_chunk_le (utf8Encode text) maxBytes (utf8Encode text).length 0 chunks hret
